import Mathlib

/-!
Verification development for the `onedigit` repository.

The Python sources are shallowly embedded below:

* `Combo`, `mkCombo` — the dataclass `Combo` of `src/onedigit/model.py`
  (fields `value`, `cost`, `expr_full`, `expr_simple`) together with its
  `__post_init__` normalisation.
* `Combo.unary_operation` — `Combo.unary_operation` (identical text in
  `model.py`, `combo.py` and `operations.py`).
* `Combo.binary_operation` — `Combo.binary_operation` of `model.py`
  (the copy invoked by `Model.simulate`).
* `ComboFile.binary_operation` — `Combo.binary_operation` of `combo.py`
  (same text as the free function in `operations.py`), which has an extra
  negative-exponent guard in the `"^"` branch.
* `Model` with `seed`, `copy`, `state_update`, `state_merge`, `simulate`,
  `asdict`, `fromdict` — the class `Model` of `model.py`; the Python `dict`
  `state` is embedded as an insertion-ordered association list.
* `get_model` — `simple.get_model`, over already-decoded JSON structures.

Python `int` is embedded as `Int`; Python `//` and `%` are `Int.fdiv` and
`Int.fmod` (floor division, remainder with the divisor's sign — exactly
Python's semantics for every nonzero divisor).  Fallible Python code
(raised exceptions) is embedded with `Except`.
-/

/-- The dataclass `Combo` (`model.py` lines 15-32; the same dataclass is in
`combo.py`).  Raw record of the four fields. -/
structure Combo where
  value : Int
  cost : Int
  expr_full : String
  expr_simple : String
deriving DecidableEq, Repr

/-- Constructing a `Combo(value, cost, expr_full, expr_simple)` runs
`__post_init__` (`model.py` lines 34-41): a `cost` of `0` becomes the
sentinel `10^9`, and empty expression strings become `str(value)`. -/
def mkCombo (v c : Int) (ef es : String) : Combo :=
  { value := v
    cost := if c = 0 then 10 ^ 9 else c
    expr_full := if ef = "" then toString v else ef
    expr_simple := if es = "" then toString v else es }

/-- The zero sentinel `Combo(value=0)`: an invalid-operation result,
recognised by callers through its value `0`. -/
def comboZero : Combo := mkCombo 0 0 "" ""

/-- `model.py` lines 153-156 / 215-220: an operand's full expression is
parenthesised before concatenation only when it contains a space. -/
def parenIfSpace (s : String) : String :=
  if s.contains ' ' then "(" ++ s ++ ")" else s

/-- The two unary operator strings accepted by `unary_operation`
(`"!"` and `"sqrt"`); any other string raises `ValueError`, a programming
error no claim touches. -/
inductive UnOp where
  | factorial
  | sqrt
deriving DecidableEq, Repr

/-- The five binary operator strings accepted by `binary_operation`. -/
inductive BinOp where
  | add
  | sub
  | mul
  | div
  | pow
deriving DecidableEq, Repr

/-- `Combo.unary_operation` (`model.py` lines 120-178; the same text is in
`combo.py` and, as a free function, in `operations.py`).
`"!"` is valid for `0 ≤ value ≤ 20`, `"sqrt"` for non-negative perfect
squares; anything else returns the zero sentinel.  On success the operand's
cost is carried over unchanged. -/
def Combo.unary_operation (c : Combo) (op : UnOp) : Combo :=
  let e1 := parenIfSpace c.expr_full
  match op with
  | .factorial =>
      if c.value < 0 ∨ 20 < c.value then comboZero
      else
        mkCombo (Int.ofNat (Nat.factorial c.value.toNat)) c.cost
          (e1 ++ "!") (toString c.value ++ "!")
  | .sqrt =>
      if c.value < 0 then comboZero
      else
        let r : Int := Int.ofNat (Nat.sqrt c.value.toNat)
        if r * r ≠ c.value then comboZero
        else
          mkCombo r c.cost ("√(" ++ e1 ++ ")") ("√(" ++ toString c.value ++ ")")

/-- Outcome of a Python-level binary operation.  `ok` returns a `Combo`
with an integer value.  `floatPow base exp` records that Python evaluated
`base ** exp` with `exp < 0` and `base ≠ 0`: the result is the *float*
`base ** exp`, so the returned record's value is not an integer (and in
particular the record is not the zero sentinel).  `zeroDivisionError`
records a raised `ZeroDivisionError`. -/
inductive BinResult where
  | ok (c : Combo)
  | floatPow (base exp : Int)
  | zeroDivisionError
deriving DecidableEq, Repr

/-- `Combo.binary_operation` of `model.py` (lines 180-257) — the copy that
`Model.simulate` invokes.  Its `"^"` branch guards only
`self.value < 0 or combo2.value > 40`; a negative exponent slips through to
`self.value ** combo2.value`, which in Python produces a float (or raises
`ZeroDivisionError` when the base is `0`). -/
def Combo.binary_operation (c1 c2 : Combo) (op : BinOp) : BinResult :=
  let cost := c1.cost + c2.cost
  let e1 := parenIfSpace c1.expr_full
  let e2 := parenIfSpace c2.expr_full
  match op with
  | .add =>
      .ok (mkCombo (c1.value + c2.value) cost (e1 ++ " + " ++ e2)
        (toString c1.value ++ " + " ++ toString c2.value))
  | .sub =>
      .ok (mkCombo (c1.value - c2.value) cost (e1 ++ " - " ++ e2)
        (toString c1.value ++ " - " ++ toString c2.value))
  | .mul =>
      .ok (mkCombo (c1.value * c2.value) cost (e1 ++ " * " ++ e2)
        (toString c1.value ++ " * " ++ toString c2.value))
  | .div =>
      if c2.value = 0 then .zeroDivisionError
      else if Int.fmod c1.value c2.value ≠ 0 then .ok comboZero
      else
        .ok (mkCombo (Int.fdiv c1.value c2.value) cost (e1 ++ " / " ++ e2)
          (toString c1.value ++ " / " ++ toString c2.value))
  | .pow =>
      if c1.value < 0 ∨ 40 < c2.value then .ok comboZero
      else if c2.value < 0 then
        if c1.value = 0 then .zeroDivisionError else .floatPow c1.value c2.value
      else
        .ok (mkCombo (c1.value ^ c2.value.toNat) cost (e1 ++ " ^ " ++ e2)
          (toString c1.value ++ " ^ " ++ toString c2.value))

namespace ComboFile

/-- `Combo.binary_operation` of `combo.py` (lines 185-266; identical logic
in `operations.py`): same as the `model.py` copy except that the `"^"`
branch additionally rejects negative exponents
(`if combo2.value < 0: return Combo(value=0)`). -/
def binary_operation (c1 c2 : Combo) (op : BinOp) : BinResult :=
  let cost := c1.cost + c2.cost
  let e1 := parenIfSpace c1.expr_full
  let e2 := parenIfSpace c2.expr_full
  match op with
  | .add =>
      .ok (mkCombo (c1.value + c2.value) cost (e1 ++ " + " ++ e2)
        (toString c1.value ++ " + " ++ toString c2.value))
  | .sub =>
      .ok (mkCombo (c1.value - c2.value) cost (e1 ++ " - " ++ e2)
        (toString c1.value ++ " - " ++ toString c2.value))
  | .mul =>
      .ok (mkCombo (c1.value * c2.value) cost (e1 ++ " * " ++ e2)
        (toString c1.value ++ " * " ++ toString c2.value))
  | .div =>
      if c2.value = 0 then .zeroDivisionError
      else if Int.fmod c1.value c2.value ≠ 0 then .ok comboZero
      else
        .ok (mkCombo (Int.fdiv c1.value c2.value) cost (e1 ++ " / " ++ e2)
          (toString c1.value ++ " / " ++ toString c2.value))
  | .pow =>
      if c1.value < 0 ∨ 40 < c2.value then .ok comboZero
      else if c2.value < 0 then .ok comboZero
      else
        .ok (mkCombo (c1.value ^ c2.value.toNat) cost (e1 ++ " ^ " ++ e2)
          (toString c1.value ++ " ^ " ++ toString c2.value))

end ComboFile

/-- Lookup in the embedded Python `dict` (the pair whose key matches;
keys are unique in a `dict`). -/
def dictLookup : List (Int × Combo) → Int → Option Combo
  | [], _ => none
  | p :: t, k => if p.1 = k then some p.2 else dictLookup t k

/-- Assignment `d[k] = c` on the embedded Python `dict`: replace in place
when the key is present (keeping its position), append at the end
otherwise — exactly a Python `dict`'s insertion-order behaviour. -/
def dictInsert : List (Int × Combo) → Int → Combo → List (Int × Combo)
  | [], k, c => [(k, c)]
  | p :: t, k, c => if p.1 = k then (k, c) :: t else p :: dictInsert t k c

/-- The class `Model` (`model.py` lines 260-505).  The Python `dict`
`state` is an insertion-ordered association list from achieved value to its
record. -/
structure Model where
  digit : Int
  max_value : Int
  max_cost : Int
  state : List (Int × Combo)
deriving DecidableEq, Repr

/-- `Model.__init__` (`model.py` lines 268-284): raises `ValueError`
unless `1 ≤ digit ≤ 9`; starts with an empty state and zero ceilings. -/
def Model.init (digit : Int) : Option Model :=
  if 1 ≤ digit ∧ digit ≤ 9 then some ⟨digit, 0, 0, []⟩ else none

/-- The `while` loop of `Model.seed` (`model.py` lines 312-317), with
explicit fuel: while `num ≤ max_value` and `cost ≤ max_cost`, insert
`state[num]` and advance `num := 10*num + digit`, `expr := expr + str digit`,
`cost := cost + 1`.  `seed` passes fuel `max_cost.toNat + 1`, which the
lemmas below show is never exhausted before the guard fails. -/
def seedLoop (digit max_value max_cost : Int) :
    Nat → Int → String → Int → List (Int × Combo) → List (Int × Combo)
  | 0, _, _, _, s => s
  | fuel + 1, num, expr, cost, s =>
      if num ≤ max_value ∧ cost ≤ max_cost then
        seedLoop digit max_value max_cost fuel (10 * num + digit)
          (expr ++ toString digit) (cost + 1)
          (dictInsert s num (mkCombo num cost expr expr))
      else s

/-- The state produced by the body of `Model.seed` (`model.py` lines
308-317): the unconditional insertion of `state[digit]` at cost 1,
followed by the repeated-digit loop (guarded by `1 <= self.digit <= 9`). -/
def Model.seedState (m : Model) (max_value max_cost : Int) : List (Int × Combo) :=
  if 1 ≤ m.digit ∧ m.digit ≤ 9 then
    seedLoop m.digit max_value max_cost (max_cost.toNat + 1) m.digit (toString m.digit) 1
      (dictInsert m.state m.digit (mkCombo m.digit 1 (toString m.digit) (toString m.digit)))
  else
    dictInsert m.state m.digit (mkCombo m.digit 1 (toString m.digit) (toString m.digit))

/-- `Model.seed` (`model.py` lines 286-317): validates the two ceilings
(raising `ValueError`, embedded as `none`, when out of range), fixes them,
then produces `seedState`. -/
def Model.seed (m : Model) (max_value max_cost : Int) : Option Model :=
  if ¬ (1 ≤ max_value ∧ max_value ≤ 1000000) then none
  else if ¬ (1 ≤ max_cost ∧ max_cost ≤ 30) then none
  else some ⟨m.digit, max_value, max_cost, m.seedState max_value max_cost⟩

/-- `Model.copy` (`model.py` lines 319-336): a fresh model carrying the
same scalars and a (shallow) copy of the state mapping — in the pure
embedding, the same data. -/
def Model.copy (m : Model) : Model :=
  ⟨m.digit, m.max_value, m.max_cost, m.state⟩

/-- `Model.state_update` (`model.py` lines 381-410).  Returns the Python
boolean together with the updated model. -/
def Model.state_update (m : Model) (candidate : Combo) : Bool × Model :=
  if m.max_cost < candidate.cost then (false, m)
  else if ¬ (1 ≤ candidate.value ∧ candidate.value ≤ m.max_value) then (false, m)
  else
    match dictLookup m.state candidate.value with
    | some ex =>
        if ex.cost ≤ candidate.cost then (false, m)
        else (true, { m with state := dictInsert m.state candidate.value candidate })
    | none => (true, { m with state := dictInsert m.state candidate.value candidate })

/-- `Model.get_valid_combos` (`model.py` lines 479-486): the list of
records in the state mapping. -/
def Model.get_valid_combos (m : Model) : List Combo :=
  m.state.map Prod.snd

/-- The acceptance test of `Model.state_merge` (`model.py` lines 427-432):
`cost2 <= self.max_cost and val2 >= 1 and val2 <= self.max_value and
(val2 not in self.state or cost2 < self.state[val2].cost)`. -/
def mergeCond (acc : Model) (c2 : Combo) : Bool :=
  decide (c2.cost ≤ acc.max_cost) && decide (1 ≤ c2.value) &&
    decide (c2.value ≤ acc.max_value) &&
    (match dictLookup acc.state c2.value with
     | none => true
     | some ex => decide (c2.cost < ex.cost))

/-- `Model.state_merge` (`model.py` lines 412-433): adopt every record of
`extra` that passes the acceptance test, keyed by its own `value`. -/
def Model.state_merge (m extra : Model) : Model :=
  extra.get_valid_combos.foldl
    (fun acc c2 =>
      if mergeCond acc c2 then
        { acc with state := dictInsert acc.state c2.value c2 }
      else acc) m

/-- A run-time failure inside one round of `Model.simulate`:
`zeroDivisionError` for `%` by zero in the `"/"` branch, and
`nonIntegerRecord` when the `"^"` branch evaluates a negative exponent and
hands a float-valued record on (possible only when the state holds a
record with negative value). -/
inductive SimException where
  | zeroDivisionError
  | nonIntegerRecord
deriving DecidableEq, Repr

/-- `updates += new_combos.state_update(candidate)` — feed one candidate
record, accumulating the Python bool into the counter. -/
def feed (acc : Int × Model) (c : Combo) : Int × Model :=
  let r := acc.2.state_update c
  (acc.1 + (if r.1 then 1 else 0), r.2)

/-- Feed the outcome of a binary operation; Python-level failures abort
the round. -/
def feedBin (acc : Int × Model) (r : BinResult) : Except SimException (Int × Model) :=
  match r with
  | .ok c => .ok (feed acc c)
  | .floatPow _ _ => .error .nonIntegerRecord
  | .zeroDivisionError => .error .zeroDivisionError

/-- The unary part of the round body (`model.py` lines 454-458): feed
`combo1.unary_operation(op)` for `op` in `["!", "sqrt"]`. -/
def unaryFeeds (acc : Int × Model) (c1 : Combo) : Int × Model :=
  feed (feed acc (c1.unary_operation .factorial)) (c1.unary_operation .sqrt)

/-- The inner-loop body of `Model.simulate` for one ordered pair
(`model.py` lines 460-473): the four operators `+ - * /` only when
`combo1.value ≥ combo2.value`, then `^` unconditionally. -/
def pairStep (c1 c2 : Combo) (acc : Int × Model) : Except SimException (Int × Model) :=
  (if c2.value ≤ c1.value then
      (feedBin acc (c1.binary_operation c2 .add)).bind fun a1 =>
        (feedBin a1 (c1.binary_operation c2 .sub)).bind fun a2 =>
          (feedBin a2 (c1.binary_operation c2 .mul)).bind fun a3 =>
            feedBin a3 (c1.binary_operation c2 .div)
    else .ok acc).bind fun a4 =>
    feedBin a4 (c1.binary_operation c2 .pow)

/-- The snapshot `known` of `Model.simulate` (`model.py` lines 448-449):
the current records, sorted ascending by value. -/
def Model.known (m : Model) : List Combo :=
  List.insertionSort (fun a b => a.value ≤ b.value) (m.state.map Prod.snd)

/-- `Model.simulate` (`model.py` lines 435-477): sort the known records by
value, generate all candidates into an independent working copy, then merge
the working copy back and report the number of accepted candidates. -/
def Model.simulate (m : Model) : Except SimException (Int × Model) :=
  (m.known.foldlM
      (fun acc c1 => m.known.foldlM (fun acc2 c2 => pairStep c1 c2 acc2) (unaryFeeds acc c1))
      ((0 : Int), m.copy)).map
    fun r => (r.1, m.state_merge r.2)

/-- A decoded JSON value, as far as the resume-loading code inspects it:
an integer, a string, or a list of string-keyed dictionaries. -/
inductive JVal where
  | jint (n : Int)
  | jstr (s : String)
  | jlist (l : List (List (String × JVal)))

/-- A decoded JSON dictionary (string keys). -/
abbrev RawDict := List (String × JVal)

/-- `input[k]` / `k in input` on a decoded dictionary. -/
def lookupKey (d : RawDict) (k : String) : Option JVal :=
  (d.find? (fun p => p.1 = k)).map Prod.snd

/-- The Python exceptions the loading paths can raise. -/
inductive PyExn where
  | valueError
  | typeError
  | unboundLocalError
deriving DecidableEq, Repr

/-- `Combo.asdict` (`model.py` lines 107-118): the dataclass fields as a
dictionary. -/
def Combo.asdict (c : Combo) : RawDict :=
  [("value", .jint c.value), ("cost", .jint c.cost),
   ("expr_full", .jstr c.expr_full), ("expr_simple", .jstr c.expr_simple)]

/-- `Combo.fromdict` (`model.py` lines 69-105): `value` and `cost` must be
present integers, `expr_full` and `expr_simple` present strings — checked
in that order, raising `ValueError` otherwise — and the record is built
through the dataclass constructor (so `__post_init__` runs). -/
def Combo.fromdict (d : RawDict) : Except PyExn Combo :=
  match lookupKey d "value" with
  | none => .error .valueError
  | some (.jint v) =>
      match lookupKey d "cost" with
      | none => .error .valueError
      | some (.jint c) =>
          match lookupKey d "expr_full" with
          | none => .error .valueError
          | some (.jstr ef) =>
              match lookupKey d "expr_simple" with
              | none => .error .valueError
              | some (.jstr es) => .ok (mkCombo v c ef es)
              | some _ => .error .valueError
          | some _ => .error .valueError
      | some _ => .error .valueError
  | some _ => .error .valueError

/-- `sorted(self.state.keys())` in `Model.asdict`. -/
def sortedKeys (m : Model) : List Int :=
  List.insertionSort (fun a b => a ≤ b) (m.state.map Prod.fst)

/-- The records of `Model.asdict`'s `combinations` entry, in ascending key
order (`model.py` lines 499-501; the indexing `self.state[num]` always
hits, so the `getD` default is never produced). -/
def Model.combos_sorted (m : Model) : List Combo :=
  (sortedKeys m).map fun k => (dictLookup m.state k).getD comboZero

/-- `Model.asdict` (`model.py` lines 488-504). -/
def Model.asdict (m : Model) : RawDict :=
  [("digit", .jint m.digit), ("max_cost", .jint m.max_cost),
   ("max_value", .jint m.max_value),
   ("combinations", .jlist (m.combos_sorted.map Combo.asdict))]

/-- The object `Model.fromdict` builds: the digit went through the
validating constructor, but `max_value` and `max_cost` are stored exactly
as found in the dictionary — no type check — so they are kept as decoded
JSON values. -/
structure LoadedModel where
  digit : Int
  max_value : JVal
  max_cost : JVal
  state : List (Int × Combo)

/-- `Model.fromdict` (`model.py` lines 338-370): check the four keys are
present (`ValueError` otherwise), build `Model(digit=input["digit"])`
(`ValueError` when the digit is not an integer in `[1, 9]`), store
`max_value`/`max_cost` unchecked, then rebuild the state from
`combinations`, keyed by each record's own value.  Iterating a
non-sequence raises `TypeError`; iterating a nonempty string feeds the
string's characters to `Combo.fromdict`, whose substring-based key test
fails with `ValueError` (an empty string yields an empty state). -/
def Model.fromdict (d : RawDict) : Except PyExn LoadedModel :=
  if (lookupKey d "digit").isNone ∨ (lookupKey d "max_value").isNone ∨
      (lookupKey d "max_cost").isNone ∨ (lookupKey d "combinations").isNone then
    .error .valueError
  else
    match lookupKey d "digit" with
    | some (.jint dg) =>
        if 1 ≤ dg ∧ dg ≤ 9 then
          let mv := (lookupKey d "max_value").getD (.jint 0)
          let mc := (lookupKey d "max_cost").getD (.jint 0)
          match lookupKey d "combinations" with
          | some (.jlist cds) =>
              (cds.foldlM
                  (fun st cd => (Combo.fromdict cd).map fun c => dictInsert st c.value c)
                  []).map
                fun st => ⟨dg, mv, mc, st⟩
          | some (.jstr s) => if s = "" then .ok ⟨dg, mv, mc, []⟩ else .error .valueError
          | some _ => .error .typeError
          | none => .error .valueError
        else .error .valueError
    | some _ => .error .valueError
    | none => .error .valueError

/-- The model object `simple.get_model` continues with after a successful
import: the loaded digit and state.  The loaded (unchecked) ceilings are
never read — the mandatory `seed` call overwrites both — so they are
dropped here. -/
def modelOfLoaded (lm : LoadedModel) : Model :=
  ⟨lm.digit, 0, 0, lm.state⟩

/-- `simple.get_model` (`simple.py` lines 41-86), over an already-decoded
resume structure (`none` embeds an empty `input_json`).  The source
assigns `mymodel2` inside `try: ... except ValueError:` and then reads it
outside the `try`; when `Model.fromdict` raised `ValueError` (or the
decoded dictionary was empty, skipping the `try` body), that read raises
`UnboundLocalError`.  A `TypeError` from `Model.fromdict` is not caught at
all.  The chosen model is then seeded (whose `ValueError` also
propagates). -/
def get_model (digit max_value max_cost : Int) (input : Option RawDict) :
    Except PyExn Model :=
  if ¬ (1 ≤ digit ∧ digit ≤ 9) then .error .valueError
  else
    let fresh : Model := ⟨digit, 0, 0, []⟩
    let chosen : Except PyExn Model :=
      match input with
      | none => .ok fresh
      | some d =>
          if d.isEmpty then .error .unboundLocalError
          else
            match Model.fromdict d with
            | .error .valueError => .error .unboundLocalError
            | .error e => .error e
            | .ok m2 => if m2.digit = digit then .ok (modelOfLoaded m2) else .ok fresh
    chosen.bind fun m =>
      match m.seed max_value max_cost with
      | some m2 => .ok m2
      | none => .error .valueError

/-- `repDigits d k` is the value written with `k` copies of the digit `d`:
`0, d, dd, ddd, …` (the `num` trajectory of the seed loop). -/
def repDigits (d : Int) : Nat → Int
  | 0 => 0
  | k + 1 => 10 * repDigits d k + d

/-- `repStr d k` is the digit character repeated `k` times (the `expr`
trajectory of the seed loop). -/
def repStr (d : Int) : Nat → String
  | 0 => ""
  | k + 1 => repStr d k ++ toString d

/-- The retention invariant of the specification: every retained record
has `1 ≤ value ≤ max_value` and `cost ≤ max_cost`. -/
def BoundsOK (m : Model) : Prop :=
  ∀ p ∈ m.state, 1 ≤ p.2.value ∧ p.2.value ≤ m.max_value ∧ p.2.cost ≤ m.max_cost

/-- The dataclass invariant every constructed `Combo` satisfies after
`__post_init__`: nonzero cost and nonempty expression strings. -/
def ComboWF (c : Combo) : Prop :=
  c.cost ≠ 0 ∧ c.expr_full ≠ "" ∧ c.expr_simple ≠ ""

/-- `Reaches m0 m`: the model `m` is obtainable from `m0` by some sequence
of `state_update`, `state_merge` and (successful) `simulate` calls. -/
inductive Reaches : Model → Model → Prop where
  | refl (m : Model) : Reaches m m
  | update (m0 m : Model) (c : Combo) :
      Reaches m0 m → Reaches m0 (m.state_update c).2
  | merge (m0 m extra : Model) :
      Reaches m0 m → Reaches m0 (m.state_merge extra)
  | simul (m0 m m2 : Model) (u : Int) :
      Reaches m0 m → m.simulate = .ok (u, m2) → Reaches m0 m2

/-- Relation between the `(updates, new_combos)` accumulator before and
after part of a round: the counter never decreases, and an unchanged
counter pins the model. -/
def StepLE (a b : Int × Model) : Prop :=
  a.1 ≤ b.1 ∧ (b.1 = a.1 → b.2 = a.2)

/-! ## Association-list (Python `dict`) lemmas -/

theorem dictLookup_dictInsert_self (s : List (Int × Combo)) (k : Int) (c : Combo) :
    dictLookup (dictInsert s k c) k = some c := by
  induction s with
  | nil => simp [dictInsert, dictLookup]
  | cons p t ih =>
      by_cases h : p.1 = k
      · simp [dictInsert, dictLookup, h]
      · simp [dictInsert, dictLookup, h, ih]

theorem dictLookup_dictInsert_ne (s : List (Int × Combo)) (k q : Int) (c : Combo)
    (h : q ≠ k) : dictLookup (dictInsert s k c) q = dictLookup s q := by
  induction s with
  | nil => simp [dictInsert, dictLookup, Ne.symm h]
  | cons p t ih =>
      by_cases hp : p.1 = k
      · subst hp
        simp [dictInsert, dictLookup, Ne.symm h]
      · by_cases hq : p.1 = q
        · simp [dictInsert, dictLookup, hp, hq, h, Ne.symm h]
        · simp [dictInsert, dictLookup, hp, hq, ih]

theorem mem_dictInsert (s : List (Int × Combo)) (k : Int) (c : Combo) (p : Int × Combo)
    (h : p ∈ dictInsert s k c) : p ∈ s ∨ p = (k, c) := by
  induction s with
  | nil => simpa [dictInsert] using h
  | cons q t ih =>
      by_cases hq : q.1 = k
      · simp only [dictInsert, if_pos hq, List.mem_cons] at h
        rcases h with h | h
        · exact Or.inr h
        · exact Or.inl (List.mem_cons_of_mem _ h)
      · simp only [dictInsert, if_neg hq, List.mem_cons] at h
        rcases h with h | h
        · exact Or.inl (h ▸ List.mem_cons_self _ _)
        · rcases ih h with h2 | h2
          · exact Or.inl (List.mem_cons_of_mem _ h2)
          · exact Or.inr h2

theorem keys_mem_dictInsert (s : List (Int × Combo)) (k : Int) (c : Combo) (q : Int)
    (h : q ∈ (dictInsert s k c).map Prod.fst) : q ∈ s.map Prod.fst ∨ q = k := by
  simp only [List.mem_map] at h
  obtain ⟨p, hp, rfl⟩ := h
  rcases mem_dictInsert s k c p hp with h2 | h2
  · exact Or.inl (List.mem_map_of_mem _ h2)
  · exact Or.inr (by rw [h2])

theorem nodup_keys_dictInsert (s : List (Int × Combo)) (k : Int) (c : Combo)
    (h : (s.map Prod.fst).Nodup) : ((dictInsert s k c).map Prod.fst).Nodup := by
  induction s with
  | nil => simp [dictInsert]
  | cons p t ih =>
      simp only [List.map_cons, List.nodup_cons] at h
      by_cases hp : p.1 = k
      · subst hp
        simpa [dictInsert, List.nodup_cons] using h
      · simp only [dictInsert, if_neg hp, List.map_cons]
        refine List.Nodup.cons ?_ (ih h.2)
        intro hmem
        rcases keys_mem_dictInsert t k c p.1 hmem with h2 | h2
        · exact h.1 h2
        · exact hp h2

theorem dictLookup_of_mem_nodup (s : List (Int × Combo)) (k : Int) (c : Combo)
    (hnd : (s.map Prod.fst).Nodup) (h : (k, c) ∈ s) : dictLookup s k = some c := by
  induction s with
  | nil => simp at h
  | cons p t ih =>
      simp only [List.map_cons, List.nodup_cons] at hnd
      rcases List.mem_cons.mp h with h1 | h1
      · rw [← h1]
        simp [dictLookup]
      · have hne : p.1 ≠ k := by
          intro he
          exact hnd.1 (he ▸ List.mem_map_of_mem Prod.fst h1)
        simp [dictLookup, hne, ih hnd.2 h1]

theorem dictLookup_mem (s : List (Int × Combo)) (k : Int) (c : Combo)
    (h : dictLookup s k = some c) : (k, c) ∈ s := by
  induction s with
  | nil => simp [dictLookup] at h
  | cons p t ih =>
      by_cases hp : p.1 = k
      · simp only [dictLookup, if_pos hp, Option.some.injEq] at h
        exact List.mem_cons.mpr (Or.inl (by rw [← h, ← hp]))
      · simp only [dictLookup, if_neg hp] at h
        exact List.mem_cons_of_mem _ (ih h)

theorem dictLookup_eq_none (s : List (Int × Combo)) (q : Int)
    (h : ∀ p ∈ s, p.1 ≠ q) : dictLookup s q = none := by
  induction s with
  | nil => rfl
  | cons p t ih =>
      simp only [List.mem_cons, forall_eq_or_imp] at h
      simp [dictLookup, h.1, ih h.2]

/-! ## `Combo` constructor lemmas -/

theorem mkCombo_value (v c : Int) (ef es : String) : (mkCombo v c ef es).value = v := rfl

theorem mkCombo_cost_of_ne (v c : Int) (ef es : String) (h : c ≠ 0) :
    (mkCombo v c ef es).cost = c := by
  simp [mkCombo, h]

theorem mkCombo_eq_self (x : Combo) (h : ComboWF x) :
    mkCombo x.value x.cost x.expr_full x.expr_simple = x := by
  obtain ⟨h1, h2, h3⟩ := h
  simp [mkCombo, h1, h2, h3]

/-! ## `state_update` lemmas -/

theorem state_update_false (m : Model) (c : Combo)
    (h : (m.state_update c).1 = false) : (m.state_update c).2 = m := by
  by_cases h1 : m.max_cost < c.cost
  · simp [Model.state_update, h1]
  · by_cases h2 : 1 ≤ c.value ∧ c.value ≤ m.max_value
    · rcases hL : dictLookup m.state c.value with _ | ex
      · simp [Model.state_update, h1, h2, hL] at h
      · by_cases h3 : ex.cost ≤ c.cost
        · simp [Model.state_update, h1, h2, hL, h3]
        · simp [Model.state_update, h1, h2, hL, h3] at h
    · simp [Model.state_update, h1, h2]

theorem state_update_scalars (m : Model) (c : Combo) :
    (m.state_update c).2.digit = m.digit ∧ (m.state_update c).2.max_value = m.max_value ∧
      (m.state_update c).2.max_cost = m.max_cost := by
  by_cases h1 : m.max_cost < c.cost
  · simp [Model.state_update, h1]
  · by_cases h2 : 1 ≤ c.value ∧ c.value ≤ m.max_value
    · rcases hL : dictLookup m.state c.value with _ | ex
      · simp [Model.state_update, h1, h2, hL]
      · by_cases h3 : ex.cost ≤ c.cost
        · simp [Model.state_update, h1, h2, hL, h3]
        · simp [Model.state_update, h1, h2, hL, h3]
    · simp [Model.state_update, h1, h2]

/-! ## String helper for distinguishing real results from the sentinel -/

theorem append_sep_ne (s t sep : String) (hsep : sep.length = 3) :
    (s ++ sep ++ t) ≠ "0" ∧ (s ++ sep ++ t) ≠ "" := by
  have h0 : ("0" : String).length = 1 := rfl
  have hemp : ("" : String).length = 0 := rfl
  constructor <;> intro h <;> have hl := congrArg String.length h <;>
    simp only [String.length_append, hsep, h0, hemp] at hl <;> omega

/-! ## Claim theorems: the operator contracts -/

/-- **C3.** `state_update(candidate)` returns true iff
`candidate.cost ≤ max_cost`, `1 ≤ candidate.value ≤ max_value`, and the
value is absent or strictly more expensive; on true the entry for
`candidate.value` becomes the candidate (all other entries unchanged, via
`dictInsert`); on false the model is completely unchanged. -/
theorem state_update_spec (m : Model) (c : Combo) :
    ((m.state_update c).1 = true ↔
      c.cost ≤ m.max_cost ∧ 1 ≤ c.value ∧ c.value ≤ m.max_value ∧
        ∀ ex, dictLookup m.state c.value = some ex → c.cost < ex.cost) ∧
    ((m.state_update c).1 = true →
      (m.state_update c).2.state = dictInsert m.state c.value c) ∧
    ((m.state_update c).1 = false → (m.state_update c).2 = m) := by
  refine ⟨?_, ?_, state_update_false m c⟩
  · by_cases h1 : m.max_cost < c.cost
    · simp only [Model.state_update, if_pos h1]
      constructor
      · intro h
        simp at h
      · intro hr
        omega
    · by_cases h2 : 1 ≤ c.value ∧ c.value ≤ m.max_value
      · rcases hL : dictLookup m.state c.value with _ | ex
        · simp only [Model.state_update, if_neg h1, if_neg (not_not_intro h2), hL]
          constructor
          · intro _
            refine ⟨by omega, h2.1, h2.2, ?_⟩
            intro ex2 hex2
            cases hex2
          · intro _
            trivial
        · by_cases h3 : ex.cost ≤ c.cost
          · simp only [Model.state_update, if_neg h1, if_neg (not_not_intro h2), hL, if_pos h3]
            constructor
            · intro h
              simp at h
            · intro hr
              have := hr.2.2.2 ex rfl
              omega
          · simp only [Model.state_update, if_neg h1, if_neg (not_not_intro h2), hL, if_neg h3]
            constructor
            · intro _
              refine ⟨by omega, h2.1, h2.2, ?_⟩
              intro ex2 hex2
              cases hex2
              omega
            · intro _
              trivial
      · simp only [Model.state_update, if_neg h1, if_pos h2]
        constructor
        · intro h
          simp at h
        · intro hr
          exact absurd ⟨hr.2.1, hr.2.2.1⟩ h2
  · by_cases h1 : m.max_cost < c.cost
    · intro h
      simp [Model.state_update, h1] at h
    · by_cases h2 : 1 ≤ c.value ∧ c.value ≤ m.max_value
      · rcases hL : dictLookup m.state c.value with _ | ex
        · intro _
          simp [Model.state_update, h1, not_not_intro h2, hL]
        · by_cases h3 : ex.cost ≤ c.cost
          · intro h
            simp [Model.state_update, h1, not_not_intro h2, hL, h3] at h
          · intro _
            simp [Model.state_update, h1, not_not_intro h2, hL, h3]
      · intro h
        simp [Model.state_update, h1, h2] at h

/-- Witness for C3 at a concrete model and candidate: the update is
accepted and the state gains the entry. -/
theorem state_update_spec_witness :
    ((Model.mk 1 5 3 []).state_update (Combo.mk 2 1 "2" "2")).1 = true ∧
    ((Model.mk 1 5 3 []).state_update (Combo.mk 2 1 "2" "2")).2.state =
      dictInsert [] 2 (Combo.mk 2 1 "2" "2") := by
  have h := state_update_spec (Model.mk 1 5 3 []) (Combo.mk 2 1 "2" "2")
  have ht : ((Model.mk 1 5 3 []).state_update (Combo.mk 2 1 "2" "2")).1 = true :=
    h.1.mpr ⟨by decide, by decide, by decide, fun ex hex => by simp [dictLookup] at hex⟩
  exact ⟨ht, h.2.1 ht⟩

/-- **C7.** The unary `"!"` returns the zero sentinel exactly when
`value < 0` or `value > 20`; otherwise it returns the factorial with the
operand's cost carried over unchanged.  (The hypothesis `r.cost ≠ 0` is
the dataclass invariant: `__post_init__` turns a zero cost into the
sentinel `10^9`, so no constructed record has cost `0`.) -/
theorem unary_factorial_spec (r : Combo) (hc : r.cost ≠ 0) :
    (r.unary_operation UnOp.factorial = comboZero ↔ r.value < 0 ∨ 20 < r.value) ∧
    (0 ≤ r.value ∧ r.value ≤ 20 →
      (r.unary_operation UnOp.factorial).value = Int.ofNat (Nat.factorial r.value.toNat) ∧
      (r.unary_operation UnOp.factorial).cost = r.cost) := by
  by_cases hv : r.value < 0 ∨ 20 < r.value
  · constructor
    · simp [Combo.unary_operation, hv]
    · intro hr
      exfalso
      rcases hv with h | h <;> omega
  · have hres : r.unary_operation UnOp.factorial =
        mkCombo (Int.ofNat (Nat.factorial r.value.toNat)) r.cost
          (parenIfSpace r.expr_full ++ "!") (toString r.value ++ "!") := by
      simp [Combo.unary_operation, hv]
    constructor
    · rw [hres]
      constructor
      · intro he
        have hval := congrArg Combo.value he
        have hpos := Nat.factorial_pos r.value.toNat
        simp only [mkCombo_value] at hval
        have hz : comboZero.value = 0 := rfl
        rw [hz] at hval
        simp only [Int.ofNat_eq_natCast, Nat.cast_eq_zero] at hval
        omega
      · intro hcon
        exact absurd hcon hv
    · intro _
      rw [hres]
      exact ⟨mkCombo_value _ _ _ _, mkCombo_cost_of_ne _ _ _ _ hc⟩

/-- Witness for C7: factorial of 21 is the zero sentinel; factorial of 20
is `2432902008176640000`. -/
theorem unary_factorial_spec_witness :
    (mkCombo 21 1 "" "").unary_operation UnOp.factorial = comboZero ∧
    ((mkCombo 20 1 "" "").unary_operation UnOp.factorial).value = 2432902008176640000 := by
  constructor
  · exact (unary_factorial_spec (mkCombo 21 1 "" "") (by decide)).1.mpr (by decide)
  · have h := (unary_factorial_spec (mkCombo 20 1 "" "") (by decide)).2 (by decide)
    rw [h.1]
    rfl

/-- **C8.** For `b.value ≥ 1`, binary `"/"` returns the zero sentinel
exactly when `b.value` does not divide `a.value` evenly, and otherwise the
exact quotient with cost `a.cost + b.cost`.  (The hypothesis
`a.cost + b.cost ≠ 0` is the dataclass invariant again: a zero sum would
be replaced by the sentinel cost by `__post_init__`.) -/
theorem binary_div_spec (a b : Combo) (hb : 1 ≤ b.value) (hc : a.cost + b.cost ≠ 0) :
    (a.binary_operation b BinOp.div = .ok comboZero ↔ ¬ b.value ∣ a.value) ∧
    (b.value ∣ a.value →
      ∃ c, a.binary_operation b BinOp.div = .ok c ∧
        c.value = a.value / b.value ∧ c.cost = a.cost + b.cost) := by
  have hb0 : b.value ≠ 0 := by omega
  have hbnn : (0 : Int) ≤ b.value := by omega
  have hfm : Int.fmod a.value b.value = a.value % b.value := Int.fmod_eq_emod _ hbnn
  by_cases hd : b.value ∣ a.value
  · have hm0 : Int.fmod a.value b.value = 0 := by
      rw [hfm]
      exact Int.emod_eq_zero_of_dvd hd
    have hres : a.binary_operation b BinOp.div =
        .ok (mkCombo (Int.fdiv a.value b.value) (a.cost + b.cost)
          (parenIfSpace a.expr_full ++ " / " ++ parenIfSpace b.expr_full)
          (toString a.value ++ " / " ++ toString b.value)) := by
      simp [Combo.binary_operation, hb0, hm0]
    have hsep := append_sep_ne (toString a.value) (toString b.value) " / " rfl
    constructor
    · rw [hres]
      constructor
      · intro he
        simp only [BinResult.ok.injEq] at he
        have hes := congrArg Combo.expr_simple he
        have h1 : (mkCombo (Int.fdiv a.value b.value) (a.cost + b.cost)
            (parenIfSpace a.expr_full ++ " / " ++ parenIfSpace b.expr_full)
            (toString a.value ++ " / " ++ toString b.value)).expr_simple =
            toString a.value ++ " / " ++ toString b.value := by
          simp [mkCombo, hsep.2]
        have h2 : comboZero.expr_simple = "0" := rfl
        rw [h1, h2] at hes
        exact absurd hes hsep.1
      · intro hcon
        exact absurd hd hcon
    · intro _
      refine ⟨_, hres, ?_, mkCombo_cost_of_ne _ _ _ _ hc⟩
      rw [mkCombo_value]
      exact Int.fdiv_eq_ediv _ hbnn
  · have hm0 : Int.fmod a.value b.value ≠ 0 := by
      rw [hfm]
      intro h
      exact hd (Int.dvd_of_emod_eq_zero h)
    have hres : a.binary_operation b BinOp.div = .ok comboZero := by
      simp [Combo.binary_operation, hb0, hm0]
    constructor
    · rw [hres]
      exact ⟨fun _ => hd, fun _ => rfl⟩
    · intro hcon
      exact absurd hcon hd

/-- Witness for C8: `7 / 2` gives the zero sentinel; `6 / 2` gives value
`3` with cost the sum of the operand costs. -/
theorem binary_div_spec_witness :
    (mkCombo 7 1 "" "").binary_operation (mkCombo 2 1 "" "") BinOp.div = .ok comboZero ∧
    ∃ c, (mkCombo 6 1 "" "").binary_operation (mkCombo 2 1 "" "") BinOp.div = .ok c ∧
      c.value = 3 ∧ c.cost = 2 := by
  constructor
  · exact (binary_div_spec (mkCombo 7 1 "" "") (mkCombo 2 1 "" "") (by decide)
      (by decide)).1.mpr (by decide)
  · obtain ⟨c, hc1, hc2, hc3⟩ := (binary_div_spec (mkCombo 6 1 "" "") (mkCombo 2 1 "" "")
      (by decide) (by decide)).2 (by decide)
    exact ⟨c, hc1, by rw [hc2]; rfl, by rw [hc3]; rfl⟩

/-- **C2** (divergence at the failing input).  The `"^"` of `model.py`'s
`Combo` — the copy `Model.simulate` invokes — does **not** return the zero
sentinel for a negative exponent: at base 2, exponent −1, it evaluates the
Python float `2 ** -1` and returns a non-sentinel, non-integer record,
while the `combo.py`/`operations.py` copy (pinned by the repository's own
test `test_combo_integer_exponentiation_negative_exponent`) returns the
zero sentinel there. -/
theorem pow_negative_exponent_divergence :
    Combo.binary_operation (mkCombo 2 1 "" "") (mkCombo (-1) 1 "" "") BinOp.pow =
      BinResult.floatPow 2 (-1) ∧
    ComboFile.binary_operation (mkCombo 2 1 "" "") (mkCombo (-1) 1 "" "") BinOp.pow =
      BinResult.ok comboZero := by
  exact ⟨by decide, by decide⟩

/-! ## One round never fails on a well-formed state (C9) -/

theorem except_bind_ok {α β : Type} {x : Except SimException α}
    {f : α → Except SimException β} {b : β} (h : x.bind f = .ok b) :
    ∃ a, x = .ok a ∧ f a = .ok b := by
  cases x with
  | error e => simp [Except.bind] at h
  | ok a => exact ⟨a, rfl, h⟩

theorem binary_operation_ok (c1 c2 : Combo) (op : BinOp)
    (h2 : 1 ≤ c2.value) : ∃ c, c1.binary_operation c2 op = .ok c := by
  cases op with
  | add => exact ⟨_, rfl⟩
  | sub => exact ⟨_, rfl⟩
  | mul => exact ⟨_, rfl⟩
  | div =>
      have hz : ¬ c2.value = 0 := by omega
      by_cases hm : Int.fmod c1.value c2.value ≠ 0
      · exact ⟨comboZero, by simp [Combo.binary_operation, hz, hm]⟩
      · refine ⟨mkCombo (Int.fdiv c1.value c2.value) (c1.cost + c2.cost)
          (parenIfSpace c1.expr_full ++ " / " ++ parenIfSpace c2.expr_full)
          (toString c1.value ++ " / " ++ toString c2.value), ?_⟩
        simp [Combo.binary_operation, hz, hm]
  | pow =>
      by_cases hb : c1.value < 0 ∨ 40 < c2.value
      · exact ⟨comboZero, by simp [Combo.binary_operation, hb]⟩
      · have hn : ¬ c2.value < 0 := by omega
        refine ⟨mkCombo (c1.value ^ c2.value.toNat) (c1.cost + c2.cost)
          (parenIfSpace c1.expr_full ++ " ^ " ++ parenIfSpace c2.expr_full)
          (toString c1.value ++ " ^ " ++ toString c2.value), ?_⟩
        simp [Combo.binary_operation, hb, hn]

theorem pairStep_ok (c1 c2 : Combo) (h2 : 1 ≤ c2.value) (acc : Int × Model) :
    ∃ acc2, pairStep c1 c2 acc = .ok acc2 := by
  obtain ⟨ca, hca⟩ := binary_operation_ok c1 c2 .add h2
  obtain ⟨cs, hcs⟩ := binary_operation_ok c1 c2 .sub h2
  obtain ⟨cm, hcm⟩ := binary_operation_ok c1 c2 .mul h2
  obtain ⟨cd, hcd⟩ := binary_operation_ok c1 c2 .div h2
  obtain ⟨cp, hcp⟩ := binary_operation_ok c1 c2 .pow h2
  by_cases hge : c2.value ≤ c1.value
  · refine ⟨feed (feed (feed (feed (feed acc ca) cs) cm) cd) cp, ?_⟩
    simp [pairStep, hge, hca, hcs, hcm, hcd, hcp, feedBin, Except.bind]
  · refine ⟨feed acc cp, ?_⟩
    simp [pairStep, hge, hcp, feedBin, Except.bind]

theorem foldlM_ok_of_steps {α : Type} (f : (Int × Model) → α → Except SimException (Int × Model))
    (l : List α) (hf : ∀ a ∈ l, ∀ acc, ∃ acc2, f acc a = .ok acc2) :
    ∀ acc, ∃ acc2, l.foldlM f acc = .ok acc2 := by
  induction l with
  | nil => exact fun acc => ⟨acc, rfl⟩
  | cons a t ih =>
      intro acc
      obtain ⟨acc1, h1⟩ := hf a (List.mem_cons_self _ _) acc
      obtain ⟨acc2, h2⟩ := ih (fun x hx acc3 => hf x (List.mem_cons_of_mem _ hx) acc3) acc1
      refine ⟨acc2, ?_⟩
      rw [List.foldlM_cons, h1]
      exact h2

/-- **C9.** When every record in the state has value ≥ 1 (as after any
seeding), one round of `simulate` never performs a division or modulo by
zero (nor a negative-exponent float escape): it completes with a result
instead of raising. -/
theorem simulate_no_division_by_zero (m : Model)
    (h : ∀ p ∈ m.state, 1 ≤ p.2.value) : ∃ r, m.simulate = .ok r := by
  have hmem : ∀ c ∈ m.known, 1 ≤ c.value := by
    intro c hc
    rw [Model.known, List.mem_insertionSort] at hc
    obtain ⟨p, hp, rfl⟩ := List.mem_map.mp hc
    exact h p hp
  have houter : ∀ c1 ∈ m.known, ∀ acc, ∃ acc2,
      m.known.foldlM (fun acc2 c2 => pairStep c1 c2 acc2) (unaryFeeds acc c1) = .ok acc2 := by
    intro c1 _ acc
    exact foldlM_ok_of_steps _ _
      (fun c2 hc2 acc2 => pairStep_ok c1 c2 (hmem c2 hc2) acc2) _
  obtain ⟨r, hr⟩ := foldlM_ok_of_steps _ _ houter ((0 : Int), m.copy)
  refine ⟨(r.1, m.state_merge r.2), ?_⟩
  unfold Model.simulate
  rw [hr]
  rfl

/-- Witness for C9 at a concrete one-record model. -/
theorem simulate_no_division_by_zero_witness :
    ∃ r, (Model.mk 1 1 1 [(1, Combo.mk 1 1 "1" "1")]).simulate = .ok r :=
  simulate_no_division_by_zero (Model.mk 1 1 1 [(1, Combo.mk 1 1 "1" "1")]) (by decide)

/-! ## The update counter pins the working copy (towards C4) -/

theorem stepLE_refl (a : Int × Model) : StepLE a a :=
  ⟨le_refl _, fun _ => rfl⟩

theorem stepLE_trans {a b c : Int × Model} (h1 : StepLE a b) (h2 : StepLE b c) :
    StepLE a c := by
  obtain ⟨hab, hab2⟩ := h1
  obtain ⟨hbc, hbc2⟩ := h2
  refine ⟨le_trans hab hbc, fun he => ?_⟩
  rw [hbc2 (by omega), hab2 (by omega)]

theorem feed_stepLE (acc : Int × Model) (c : Combo) : StepLE acc (feed acc c) := by
  by_cases hb : (acc.2.state_update c).1 = true
  · refine ⟨?_, ?_⟩
    · simp only [feed, hb, if_true]
      omega
    · intro he
      simp only [feed, hb, if_true] at he
      omega
  · have hb2 : (acc.2.state_update c).1 = false := by simpa using hb
    have hm := state_update_false acc.2 c hb2
    refine ⟨?_, ?_⟩
    · simp only [feed, hb2]
      omega
    · intro _
      simp only [feed, hb2]
      simpa using hm

theorem feedBin_stepLE (acc acc2 : Int × Model) (r : BinResult)
    (h : feedBin acc r = .ok acc2) : StepLE acc acc2 := by
  cases r with
  | ok c =>
      have h2 : acc2 = feed acc c := by
        simpa [feedBin] using h.symm
      rw [h2]
      exact feed_stepLE acc c
  | floatPow b e => simp [feedBin] at h
  | zeroDivisionError => simp [feedBin] at h

theorem pairStep_stepLE (c1 c2 : Combo) (acc acc2 : Int × Model)
    (h : pairStep c1 c2 acc = .ok acc2) : StepLE acc acc2 := by
  unfold pairStep at h
  obtain ⟨a4, h4, hp⟩ := except_bind_ok h
  have hle4 : StepLE acc a4 := by
    by_cases hge : c2.value ≤ c1.value
    · rw [if_pos hge] at h4
      obtain ⟨a1, h1, hr1⟩ := except_bind_ok h4
      obtain ⟨a2, h2, hr2⟩ := except_bind_ok hr1
      obtain ⟨a3, h3, hr3⟩ := except_bind_ok hr2
      exact stepLE_trans (feedBin_stepLE _ _ _ h1)
        (stepLE_trans (feedBin_stepLE _ _ _ h2)
          (stepLE_trans (feedBin_stepLE _ _ _ h3) (feedBin_stepLE _ _ _ hr3)))
    · rw [if_neg hge] at h4
      cases h4
      exact stepLE_refl _
  exact stepLE_trans hle4 (feedBin_stepLE _ _ _ hp)

theorem unaryFeeds_stepLE (acc : Int × Model) (c1 : Combo) :
    StepLE acc (unaryFeeds acc c1) :=
  stepLE_trans (feed_stepLE acc (c1.unary_operation .factorial))
    (feed_stepLE _ (c1.unary_operation .sqrt))

theorem foldlM_stepLE {α : Type} (f : (Int × Model) → α → Except SimException (Int × Model))
    (hf : ∀ acc a acc2, f acc a = .ok acc2 → StepLE acc acc2) :
    ∀ (l : List α) (acc acc2 : Int × Model), l.foldlM f acc = .ok acc2 → StepLE acc acc2 := by
  intro l
  induction l with
  | nil =>
      intro acc acc2 h
      rw [List.foldlM_nil] at h
      cases h
      exact stepLE_refl _
  | cons a t ih =>
      intro acc acc2 h
      rw [List.foldlM_cons] at h
      obtain ⟨acc1, h1, h2⟩ := except_bind_ok h
      exact stepLE_trans (hf acc a acc1 h1) (ih acc1 acc2 h2)

theorem simulate_fold_stepLE (m : Model) (r : Int × Model)
    (h : m.known.foldlM
        (fun acc c1 => m.known.foldlM (fun acc2 c2 => pairStep c1 c2 acc2) (unaryFeeds acc c1))
        ((0 : Int), m.copy) = .ok r) :
    StepLE ((0 : Int), m.copy) r := by
  refine foldlM_stepLE _ ?_ _ _ _ h
  intro acc c1 acc2 hstep
  exact stepLE_trans (unaryFeeds_stepLE acc c1)
    (foldlM_stepLE _ (fun a c2 a2 hp => pairStep_stepLE c1 c2 a a2 hp) _ _ _ hstep)

/-! ## Merging a model into itself changes nothing -/

theorem state_merge_fold_const (m : Model) (l : List Combo)
    (hl : ∀ c2 ∈ l, ∃ ex, dictLookup m.state c2.value = some ex ∧ ¬ c2.cost < ex.cost) :
    l.foldl
      (fun acc c2 =>
        if mergeCond acc c2 then { acc with state := dictInsert acc.state c2.value c2 }
        else acc) m = m := by
  induction l with
  | nil => rfl
  | cons c t ih =>
      obtain ⟨ex, hex, hlt⟩ := hl c (List.mem_cons_self _ _)
      have hcond : mergeCond m c = false := by
        unfold mergeCond
        rw [hex]
        simp [hlt]
      rw [List.foldl_cons, if_neg (by simp [hcond])]
      exact ih (fun c2 hc2 => hl c2 (List.mem_cons_of_mem _ hc2))

theorem state_merge_self (m : Model) (hkv : ∀ p ∈ m.state, p.1 = p.2.value)
    (hnd : (m.state.map Prod.fst).Nodup) : m.state_merge m = m := by
  unfold Model.state_merge Model.get_valid_combos
  apply state_merge_fold_const
  intro c2 hc2
  obtain ⟨p, hp, rfl⟩ := List.mem_map.mp hc2
  have hk := hkv p hp
  refine ⟨p.2, ?_, by omega⟩
  have hpm : (p.2.value, p.2) ∈ m.state := by
    have : p = (p.2.value, p.2) := by
      rw [← hk]
    rw [← this]
    exact hp
  exact dictLookup_of_mem_nodup _ _ _ hnd hpm

theorem Model.copy_eq (m : Model) : m.copy = m := rfl

/-- **C4.** For a model whose state is a genuine mapping (keys equal their
record's value and are duplicate-free — true of every seeded model), if
`simulate()` returns 0 then the state was not changed by that call
(the resulting model *is* the original), and calling `simulate()` again
returns 0 on the same state: the fixed point is stable. -/
theorem simulate_fixed_point (m m2 : Model)
    (hkv : ∀ p ∈ m.state, p.1 = p.2.value)
    (hnd : (m.state.map Prod.fst).Nodup)
    (h : m.simulate = .ok (0, m2)) :
    m2 = m ∧ m2.simulate = .ok (0, m2) := by
  have h0 := h
  unfold Model.simulate at h
  rcases hf : m.known.foldlM
      (fun acc c1 => m.known.foldlM (fun acc2 c2 => pairStep c1 c2 acc2) (unaryFeeds acc c1))
      ((0 : Int), m.copy) with e | r
  · rw [hf] at h
    simp [Except.map] at h
  · rw [hf] at h
    simp only [Except.map, Except.ok.injEq, Prod.mk.injEq] at h
    obtain ⟨hu, hmerge⟩ := h
    have hle := simulate_fold_stepLE m r hf
    have hr2 : r.2 = m.copy := hle.2 (by simpa using hu)
    rw [Model.copy_eq] at hr2
    have hm2 : m2 = m := by
      rw [← hmerge, hr2, state_merge_self m hkv hnd]
    refine ⟨hm2, ?_⟩
    rw [hm2] at h0 ⊢
    exact h0

/-- Witness for C4: a concrete seeded model (digit 1, ceilings 1/1) on
which `simulate` returns 0 and the state is unchanged; the theorem then
gives that the second call returns 0 as well. -/
theorem simulate_fixed_point_witness :
    Model.mk 1 1 1 [(1, Combo.mk 1 1 "1" "1")] = Model.mk 1 1 1 [(1, Combo.mk 1 1 "1" "1")] ∧
    (Model.mk 1 1 1 [(1, Combo.mk 1 1 "1" "1")]).simulate =
      Except.ok (0, Model.mk 1 1 1 [(1, Combo.mk 1 1 "1" "1")]) :=
  simulate_fixed_point _ _ (by decide) (by decide) rfl

/-! ## Retention bounds along the model lifecycle (C1) -/

theorem state_update_cases (m : Model) (c : Combo) :
    (m.state_update c).2 = m ∨
    ((m.state_update c).2 = { m with state := dictInsert m.state c.value c } ∧
      c.cost ≤ m.max_cost ∧ 1 ≤ c.value ∧ c.value ≤ m.max_value) := by
  by_cases h1 : m.max_cost < c.cost
  · exact Or.inl (by simp [Model.state_update, h1])
  · by_cases h2 : 1 ≤ c.value ∧ c.value ≤ m.max_value
    · rcases hL : dictLookup m.state c.value with _ | ex
      · exact Or.inr ⟨by simp [Model.state_update, h1, not_not_intro h2, hL],
          by omega, h2.1, h2.2⟩
      · by_cases h3 : ex.cost ≤ c.cost
        · exact Or.inl (by simp [Model.state_update, h1, not_not_intro h2, hL, h3])
        · exact Or.inr ⟨by simp [Model.state_update, h1, not_not_intro h2, hL, h3],
            by omega, h2.1, h2.2⟩
    · exact Or.inl (by simp [Model.state_update, h1, h2])

theorem state_update_boundsOK (m : Model) (c : Combo) (h : BoundsOK m) :
    BoundsOK (m.state_update c).2 := by
  rcases state_update_cases m c with hc | ⟨hc, hcost, hv1, hv2⟩
  · rw [hc]
    exact h
  · rw [hc]
    intro p hp
    rcases mem_dictInsert _ _ _ _ hp with hp2 | hp2
    · exact h p hp2
    · rw [hp2]
      exact ⟨hv1, hv2, hcost⟩

theorem state_merge_scalars (m extra : Model) :
    (m.state_merge extra).digit = m.digit ∧ (m.state_merge extra).max_value = m.max_value ∧
      (m.state_merge extra).max_cost = m.max_cost := by
  unfold Model.state_merge
  generalize extra.get_valid_combos = l
  induction l generalizing m with
  | nil => exact ⟨rfl, rfl, rfl⟩
  | cons c t ih =>
      rw [List.foldl_cons]
      by_cases hc : mergeCond m c
      · rw [if_pos hc]
        exact ih _
      · rw [if_neg hc]
        exact ih m

theorem state_merge_boundsOK (m extra : Model) (h : BoundsOK m) :
    BoundsOK (m.state_merge extra) := by
  unfold Model.state_merge
  generalize extra.get_valid_combos = l
  induction l generalizing m with
  | nil => exact h
  | cons c t ih =>
      rw [List.foldl_cons]
      by_cases hc : mergeCond m c
      · rw [if_pos hc]
        apply ih
        intro p hp
        rcases mem_dictInsert _ _ _ _ hp with hp2 | hp2
        · exact h p hp2
        · unfold mergeCond at hc
          simp only [Bool.and_eq_true, decide_eq_true_eq] at hc
          rw [hp2]
          exact ⟨hc.1.1.2, hc.1.2, hc.1.1.1⟩
      · rw [if_neg hc]
        exact ih m h

theorem simulate_result_eq (m : Model) (u : Int) (m2 : Model)
    (h : m.simulate = .ok (u, m2)) :
    ∃ r : Int × Model, r.1 = u ∧ m2 = m.state_merge r.2 := by
  unfold Model.simulate at h
  rcases hf : m.known.foldlM
      (fun acc c1 => m.known.foldlM (fun acc2 c2 => pairStep c1 c2 acc2) (unaryFeeds acc c1))
      ((0 : Int), m.copy) with e | r
  · rw [hf] at h
    simp [Except.map] at h
  · rw [hf] at h
    simp only [Except.map, Except.ok.injEq, Prod.mk.injEq] at h
    exact ⟨r, h.1, h.2.symm⟩

theorem simulate_boundsOK (m m2 : Model) (u : Int) (h : m.simulate = .ok (u, m2))
    (hb : BoundsOK m) : BoundsOK m2 := by
  obtain ⟨r, _, hm2⟩ := simulate_result_eq m u m2 h
  rw [hm2]
  exact state_merge_boundsOK m r.2 hb

theorem reaches_boundsOK (m0 m : Model) (h : Reaches m0 m) (hb : BoundsOK m0) :
    BoundsOK m := by
  induction h with
  | refl => exact hb
  | update mm c _ ih => exact state_update_boundsOK mm c ih
  | merge mm extra _ ih => exact state_merge_boundsOK mm extra ih
  | simul mm m2 u _ hsim ih => exact simulate_boundsOK mm m2 u hsim ih

theorem seedLoop_boundsOK (digit mv mc : Int) (hd : 0 ≤ digit) :
    ∀ (fuel : Nat) (num : Int) (expr : String) (cost : Int) (s : List (Int × Combo)),
      1 ≤ num → 1 ≤ cost →
      (∀ p ∈ s, 1 ≤ p.2.value ∧ p.2.value ≤ mv ∧ p.2.cost ≤ mc) →
      ∀ p ∈ seedLoop digit mv mc fuel num expr cost s,
        1 ≤ p.2.value ∧ p.2.value ≤ mv ∧ p.2.cost ≤ mc := by
  intro fuel
  induction fuel with
  | zero =>
      intro num expr cost s _ _ hs
      simpa [seedLoop] using hs
  | succ f ih =>
      intro num expr cost s hn hc hs
      by_cases hg : num ≤ mv ∧ cost ≤ mc
      · simp only [seedLoop, if_pos hg]
        apply ih _ _ _ _ (by omega) (by omega)
        intro p hp
        rcases mem_dictInsert _ _ _ _ hp with hp2 | hp2
        · exact hs p hp2
        · rw [hp2]
          refine ⟨?_, ?_, ?_⟩
          · rw [mkCombo_value]
            omega
          · rw [mkCombo_value]
            exact hg.1
          · rw [mkCombo_cost_of_ne _ _ _ _ (by omega)]
            exact hg.2
      · simp only [seedLoop, if_neg hg]
        exact hs

theorem seed_some (m : Model) (mv mc : Int) (m1 : Model) (h : m.seed mv mc = some m1) :
    (1 ≤ mv ∧ mv ≤ 1000000) ∧ (1 ≤ mc ∧ mc ≤ 30) ∧
      m1 = ⟨m.digit, mv, mc, m.seedState mv mc⟩ := by
  unfold Model.seed at h
  by_cases h1 : 1 ≤ mv ∧ mv ≤ 1000000
  · by_cases h2 : 1 ≤ mc ∧ mc ≤ 30
    · rw [if_neg (not_not_intro h1), if_neg (not_not_intro h2)] at h
      exact ⟨h1, h2, (Option.some.inj h).symm⟩
    · rw [if_neg (not_not_intro h1), if_pos h2] at h
      cases h
  · rw [if_pos h1] at h
    cases h

theorem seedState_boundsOK (m0 : Model) (mv mc : Int)
    (hd : 1 ≤ m0.digit ∧ m0.digit ≤ 9) (hdm : m0.digit ≤ mv) (hc1 : 1 ≤ mc)
    (hs0 : ∀ p ∈ m0.state, 1 ≤ p.2.value ∧ p.2.value ≤ mv ∧ p.2.cost ≤ mc) :
    ∀ p ∈ m0.seedState mv mc, 1 ≤ p.2.value ∧ p.2.value ≤ mv ∧ p.2.cost ≤ mc := by
  have hins : ∀ p ∈ dictInsert m0.state m0.digit
      (mkCombo m0.digit 1 (toString m0.digit) (toString m0.digit)),
      1 ≤ p.2.value ∧ p.2.value ≤ mv ∧ p.2.cost ≤ mc := by
    intro p hp
    rcases mem_dictInsert _ _ _ _ hp with hp2 | hp2
    · exact hs0 p hp2
    · rw [hp2]
      refine ⟨?_, ?_, ?_⟩
      · rw [mkCombo_value]
        exact hd.1
      · rw [mkCombo_value]
        exact hdm
      · rw [mkCombo_cost_of_ne _ _ _ _ (by omega)]
        exact hc1
  unfold Model.seedState
  rw [if_pos hd]
  exact seedLoop_boundsOK m0.digit mv mc (by omega) _ m0.digit (toString m0.digit) 1 _
    (by omega) (by omega) hins

theorem seed_boundsOK (m0 m1 : Model) (mv mc : Int)
    (hd : 1 ≤ m0.digit ∧ m0.digit ≤ 9) (hdm : m0.digit ≤ mv)
    (hs0 : ∀ p ∈ m0.state, 1 ≤ p.2.value ∧ p.2.value ≤ mv ∧ p.2.cost ≤ mc)
    (h : m0.seed mv mc = some m1) : BoundsOK m1 := by
  obtain ⟨h1, h2, hm1⟩ := seed_some m0 mv mc m1 h
  rw [hm1]
  exact seedState_boundsOK m0 mv mc hd hdm h2.1 hs0

/-- **C1** (amended).  For a fresh model with digit `d` seeded with valid
ceilings and **`d ≤ max_value`**, every record reachable through any
sequence of `state_update`, `state_merge` and successful `simulate` calls
satisfies `1 ≤ value ≤ max_value` and `cost ≤ max_cost`.  The restriction
`d ≤ max_value` is forced: `seed` inserts `state[digit]` unconditionally,
before the ceiling-guarded loop, so a digit above `max_value` yields a
retained record violating the value bound (see the counterexample). -/
theorem seeded_reachable_bounds (d mv mc : Int) (m0 m1 m : Model)
    (h0 : Model.init d = some m0) (hseed : m0.seed mv mc = some m1)
    (hdm : d ≤ mv) (hr : Reaches m1 m) :
    ∀ p ∈ m.state, 1 ≤ p.2.value ∧ p.2.value ≤ m.max_value ∧ p.2.cost ≤ m.max_cost := by
  have hm0 : m0 = ⟨d, 0, 0, []⟩ ∧ 1 ≤ d ∧ d ≤ 9 := by
    unfold Model.init at h0
    by_cases hd : 1 ≤ d ∧ d ≤ 9
    · rw [if_pos hd] at h0
      exact ⟨(Option.some.inj h0).symm, hd⟩
    · rw [if_neg hd] at h0
      cases h0
  have hb1 : BoundsOK m1 := by
    apply seed_boundsOK m0 m1 mv mc ?_ ?_ ?_ hseed
    · rw [hm0.1]
      exact hm0.2
    · rw [hm0.1]
      exact hdm
    · rw [hm0.1]
      intro p hp
      cases hp
  exact reaches_boundsOK m1 m hr hb1

/-- **C1** (counterexample).  Seeding a fresh digit-9 model with
`max_value = 1`, `max_cost = 1` succeeds, yet the retained record for the
digit itself has value `9 > max_value`: the claimed invariant fails
immediately after seeding when `digit > max_value`. -/
theorem seed_value_bound_counterexample :
    ((Model.init 9).bind (fun m0 => m0.seed 1 1)).map
      (fun m1 => m1.state.all (fun p => decide (p.2.value ≤ m1.max_value))) = some false :=
  rfl

/-- Witness for the amended C1 at digit 3, ceilings 10/4, with the empty
further call sequence. -/
theorem seeded_reachable_bounds_witness :
    1 ≤ (Combo.mk 3 1 "3" "3").value ∧
      (Combo.mk 3 1 "3" "3").value ≤ (Model.mk 3 10 4 [(3, Combo.mk 3 1 "3" "3")]).max_value ∧
      (Combo.mk 3 1 "3" "3").cost ≤ (Model.mk 3 10 4 [(3, Combo.mk 3 1 "3" "3")]).max_cost := by
  have h := seeded_reachable_bounds 3 10 4 (Model.mk 3 0 0 [])
    (Model.mk 3 10 4 [(3, Combo.mk 3 1 "3" "3")]) (Model.mk 3 10 4 [(3, Combo.mk 3 1 "3" "3")])
    rfl rfl (by decide) (Reaches.refl _)
  exact h (3, Combo.mk 3 1 "3" "3") (by decide)

/-! ## The repeated-digit values seeded by the loop (C10) -/

theorem repDigits_pos (d : Int) (hd : 1 ≤ d) : ∀ k, 1 ≤ k → 1 ≤ repDigits d k := by
  intro k hk
  induction k with
  | zero => omega
  | succ n ih =>
      by_cases hn : 1 ≤ n
      · have := ih hn
        simp only [repDigits]
        omega
      · have hn0 : n = 0 := by omega
        subst hn0
        simp only [repDigits]
        omega

theorem repDigits_lt_succ (d : Int) (hd : 1 ≤ d) (k : Nat) (hk : 1 ≤ k) :
    repDigits d k < repDigits d (k + 1) := by
  have := repDigits_pos d hd k hk
  show repDigits d k < 10 * repDigits d k + d
  omega

theorem repDigits_mono (d : Int) (hd : 1 ≤ d) :
    ∀ i k : Nat, 1 ≤ i → i ≤ k → repDigits d i ≤ repDigits d k := by
  intro i k h1 h2
  induction k with
  | zero => omega
  | succ n ih =>
      by_cases hn : i ≤ n
      · have hlt := repDigits_lt_succ d hd n (by omega)
        have := ih hn
        omega
      · have : i = n + 1 := by omega
        subst this
        exact le_refl _

theorem seedLoop_lookup_lt (digit mv mc : Int) (hd : 0 ≤ digit) :
    ∀ (fuel : Nat) (num : Int) (expr : String) (cost : Int) (s : List (Int × Combo)) (q : Int),
      q < num → 0 ≤ num →
      dictLookup (seedLoop digit mv mc fuel num expr cost s) q = dictLookup s q := by
  intro fuel
  induction fuel with
  | zero =>
      intro num expr cost s q _ _
      simp [seedLoop]
  | succ f ih =>
      intro num expr cost s q hq hn
      by_cases hg : num ≤ mv ∧ cost ≤ mc
      · simp only [seedLoop, if_pos hg]
        rw [ih _ _ _ _ q (by omega) (by omega)]
        exact dictLookup_dictInsert_ne _ _ _ _ (by omega)
      · simp only [seedLoop, if_neg hg]

theorem seedLoop_lookup_rep (d mv mc : Int) (hd : 1 ≤ d) (k : Nat) (hk : 1 ≤ k)
    (hkv : repDigits d k ≤ mv) (hkc : (k : Int) ≤ mc) :
    ∀ (fuel : Nat) (i : Nat) (num : Int) (expr : String) (cost : Int)
      (s : List (Int × Combo)),
      1 ≤ i → i ≤ k → k + 1 - i ≤ fuel →
      num = repDigits d i → expr = repStr d i → cost = (i : Int) →
      dictLookup (seedLoop d mv mc fuel num expr cost s) (repDigits d k) =
        some (mkCombo (repDigits d k) (k : Int) (repStr d k) (repStr d k)) := by
  intro fuel
  induction fuel with
  | zero =>
      intro i num expr cost s h1 h2 h3 _ _ _
      omega
  | succ f ih =>
      intro i num expr cost s h1 h2 h3 hnum hexpr hcost
      subst hnum
      subst hexpr
      subst hcost
      have hg : repDigits d i ≤ mv ∧ (i : Int) ≤ mc := by
        refine ⟨le_trans (repDigits_mono d hd i k h1 h2) hkv, ?_⟩
        have hik : (i : Int) ≤ (k : Int) := by exact_mod_cast h2
        omega
      simp only [seedLoop, if_pos hg]
      have e1 : 10 * repDigits d i + d = repDigits d (i + 1) := rfl
      have e2 : repStr d i ++ toString d = repStr d (i + 1) := rfl
      have e3 : (i : Int) + 1 = ((i + 1 : Nat) : Int) := by
        push_cast
        ring
      rw [e1, e2, e3]
      by_cases hik : i = k
      · subst hik
        rw [seedLoop_lookup_lt d mv mc (by omega) f _ _ _ _ _
          (repDigits_lt_succ d hd i h1) (by have := repDigits_pos d hd (i + 1) (by omega); omega)]
        exact dictLookup_dictInsert_self _ _ _
      · exact ih (i + 1) _ _ _ _ (by omega) (by omega) (by omega) rfl rfl rfl

theorem toString_digit_len (d : Int) (h1 : 1 ≤ d) (h9 : d ≤ 9) :
    1 ≤ (toString d).length := by
  interval_cases d <;> decide

theorem repStr_ne_empty (d : Int) (h1 : 1 ≤ d) (h9 : d ≤ 9) (k : Nat) (hk : 1 ≤ k) :
    repStr d k ≠ "" := by
  intro he
  rcases k with _ | n
  · omega
  · have hl := congrArg String.length he
    have hlen := toString_digit_len d h1 h9
    simp only [repStr, String.length_append] at hl
    have h0 : ("" : String).length = 0 := rfl
    rw [h0] at hl
    omega

/-- **C10.**  After a successful `seed(max_value, max_cost)` on a model
with digit `d ∈ [1,9]`, for every `k ≥ 1` whose repeated-digit value
`r_k = d, dd, ddd, …` satisfies `r_k ≤ max_value` and `k ≤ max_cost`, the
state holds an entry at key `r_k` whose record has value `r_k`, cost `k`,
and both expressions equal to the digit character repeated `k` times. -/
theorem seed_repunit_complete (m0 m1 : Model) (mv mc : Int)
    (hd : 1 ≤ m0.digit ∧ m0.digit ≤ 9)
    (hseed : m0.seed mv mc = some m1) (k : Nat) (hk : 1 ≤ k)
    (hkv : repDigits m0.digit k ≤ mv) (hkc : (k : Int) ≤ mc) :
    ∃ c, dictLookup m1.state (repDigits m0.digit k) = some c ∧
      c.value = repDigits m0.digit k ∧ c.cost = (k : Int) ∧
      c.expr_full = repStr m0.digit k ∧ c.expr_simple = repStr m0.digit k := by
  obtain ⟨h1, h2, hm1⟩ := seed_some m0 mv mc m1 hseed
  refine ⟨mkCombo (repDigits m0.digit k) (k : Int) (repStr m0.digit k) (repStr m0.digit k),
    ?_, ?_, ?_, ?_, ?_⟩
  · rw [hm1]
    show dictLookup (m0.seedState mv mc) _ = _
    unfold Model.seedState
    rw [if_pos hd]
    apply seedLoop_lookup_rep m0.digit mv mc hd.1 k hk hkv hkc (mc.toNat + 1) 1 _ _ _ _
      (le_refl 1) hk (by omega) ?_ ?_ rfl
    · simp [repDigits]
    · show toString m0.digit = "" ++ toString m0.digit
      rfl
  · rw [mkCombo_value]
  · rw [mkCombo_cost_of_ne]
    omega
  · show (if repStr m0.digit k = "" then _ else repStr m0.digit k) = repStr m0.digit k
    rw [if_neg (repStr_ne_empty m0.digit hd.1 hd.2 k hk)]
  · show (if repStr m0.digit k = "" then _ else repStr m0.digit k) = repStr m0.digit k
    rw [if_neg (repStr_ne_empty m0.digit hd.1 hd.2 k hk)]

/-- Witness for C10: digit 3, ceilings 1000/4, k = 3 — the seeded state
holds the entry for 333 at cost 3 with expressions "333". -/
theorem seed_repunit_complete_witness :
    ∃ c, dictLookup (Model.mk 3 1000 4
        [(3, Combo.mk 3 1 "3" "3"), (33, Combo.mk 33 2 "33" "33"),
          (333, Combo.mk 333 3 "333" "333")]).state (repDigits 3 3) = some c ∧
      c.value = repDigits 3 3 ∧ c.cost = ((3 : Nat) : Int) ∧
      c.expr_full = repStr 3 3 ∧ c.expr_simple = repStr 3 3 :=
  seed_repunit_complete (Model.mk 3 0 0 [])
    (Model.mk 3 1000 4
      [(3, Combo.mk 3 1 "3" "3"), (33, Combo.mk 33 2 "33" "33"),
        (333, Combo.mk 333 3 "333" "333")])
    1000 4 (by decide) rfl 3 (by decide) (by decide) (by decide)

/-- **C5** (divergence at the failing input).  Loading a resume structure
with a missing required field does **not** fall back to a fresh seeded
model: `get_model`'s `except ValueError` catches the `Model.fromdict`
failure, but the following `if mymodel2.digit == digit` reads the
never-assigned `mymodel2`, so `UnboundLocalError` propagates out of the
core (first conjunct).  The digit-mismatch branch of the claim does behave
as specified: a well-formed structure for digit 1 requested as digit 2 is
ignored and a fresh seeded digit-2 model is returned (second conjunct). -/
theorem get_model_unbound_local :
    get_model 1 9999 2 (some [("digit", JVal.jint 1)]) = .error .unboundLocalError ∧
    get_model 2 9999 2 (some [("digit", JVal.jint 1), ("max_value", JVal.jint 50),
        ("max_cost", JVal.jint 2), ("combinations", JVal.jlist [])]) =
      .ok (Model.mk 2 9999 2 [(2, Combo.mk 2 1 "2" "2"), (22, Combo.mk 22 2 "22" "22")]) :=
  ⟨rfl, rfl⟩

/-! ## Round-trip serialization (C6) -/

theorem fromdict_asdict (c : Combo) (h : ComboWF c) :
    Combo.fromdict (Combo.asdict c) = .ok c := by
  show Except.ok (mkCombo c.value c.cost c.expr_full c.expr_simple) = Except.ok c
  rw [mkCombo_eq_self c h]

theorem mem_sortedKeys (m : Model) (q : Int) :
    q ∈ sortedKeys m ↔ q ∈ m.state.map Prod.fst := by
  unfold sortedKeys
  exact List.mem_insertionSort _

theorem nodup_sortedKeys (m : Model) (hnd : (m.state.map Prod.fst).Nodup) :
    (sortedKeys m).Nodup :=
  (List.perm_insertionSort _ _).nodup_iff.mpr hnd

theorem sorted_sortedKeys (m : Model) : List.Sorted (· ≤ ·) (sortedKeys m) :=
  List.sorted_insertionSort _ _

theorem lookup_of_mem_keys (m : Model) (hnd : (m.state.map Prod.fst).Nodup) (q : Int)
    (hq : q ∈ m.state.map Prod.fst) : ∃ c, dictLookup m.state q = some c := by
  obtain ⟨p, hp, rfl⟩ := List.mem_map.mp hq
  exact ⟨p.2, dictLookup_of_mem_nodup _ _ _ hnd (by rw [← Prod.mk.eta (p := p)] at hp; exact hp)⟩

theorem lookup_value_eq (m : Model) (hkv : ∀ p ∈ m.state, p.1 = p.2.value)
    (k : Int) (c : Combo) (h : dictLookup m.state k = some c) : c.value = k := by
  have hm := dictLookup_mem _ _ _ h
  exact (hkv (k, c) hm).symm

theorem combos_sorted_values (m : Model) (hkv : ∀ p ∈ m.state, p.1 = p.2.value)
    (hnd : (m.state.map Prod.fst).Nodup) :
    m.combos_sorted.map Combo.value = sortedKeys m := by
  unfold Model.combos_sorted
  rw [List.map_map]
  have h : ∀ k ∈ sortedKeys m,
      (Combo.value ∘ fun k => (dictLookup m.state k).getD comboZero) k = id k := by
    intro k hk
    obtain ⟨c, hc⟩ := lookup_of_mem_keys m hnd k ((mem_sortedKeys m k).mp hk)
    simp only [Function.comp_apply, hc, Option.getD_some, id]
    exact lookup_value_eq m hkv k c hc
  rw [List.map_congr_left h, List.map_id]

theorem find?_value_of_mem (cs : List Combo) (hnd : (cs.map Combo.value).Nodup)
    (x : Combo) (hx : x ∈ cs) : cs.find? (fun c => c.value = x.value) = some x := by
  induction cs with
  | nil => cases hx
  | cons c t ih =>
      simp only [List.map_cons, List.nodup_cons] at hnd
      rcases List.mem_cons.mp hx with h1 | h1
      · rw [← h1]
        exact List.find?_cons_of_pos _ (by simp)
      · have hne : ¬ c.value = x.value := by
          intro he
          exact hnd.1 (he ▸ List.mem_map_of_mem Combo.value h1)
        rw [List.find?_cons_of_neg _ (by simpa using hne)]
        exact ih hnd.2 h1

theorem foldl_dictInsert_lookup_nodup (cs : List Combo) (hnd : (cs.map Combo.value).Nodup) :
    ∀ (st : List (Int × Combo)) (q : Int),
      dictLookup (cs.foldl (fun st c => dictInsert st c.value c) st) q =
        match cs.find? (fun c => c.value = q) with
        | some c => some c
        | none => dictLookup st q := by
  induction cs with
  | nil => intro st q; rfl
  | cons c t ih =>
      intro st q
      simp only [List.map_cons, List.nodup_cons] at hnd
      rw [List.foldl_cons, ih hnd.2]
      by_cases hq : c.value = q
      · have htnone : t.find? (fun x => decide (x.value = q)) = none := by
          apply List.find?_eq_none.mpr
          intro x hx
          simp only [decide_eq_true_eq]
          intro hxq
          exact hnd.1 (hq ▸ hxq ▸ List.mem_map_of_mem Combo.value hx)
        rw [htnone, List.find?_cons_of_pos _ (by simpa using hq)]
        subst hq
        exact dictLookup_dictInsert_self st c.value c
      · rw [List.find?_cons_of_neg _ (by simpa using hq)]
        cases hf : t.find? (fun x => decide (x.value = q)) with
        | some x => rfl
        | none => exact dictLookup_dictInsert_ne st c.value q c (Ne.symm hq)

theorem fold_fromdict (cs : List Combo) (h : ∀ c ∈ cs, ComboWF c) :
    ∀ st, (cs.map Combo.asdict).foldlM
        (fun st2 cd => (Combo.fromdict cd).map fun c => dictInsert st2 c.value c) st =
      .ok (cs.foldl (fun st2 c => dictInsert st2 c.value c) st) := by
  induction cs with
  | nil => intro st; rfl
  | cons c t ih =>
      intro st
      rw [List.map_cons, List.foldlM_cons, fromdict_asdict c (h c (List.mem_cons_self _ _))]
      show (t.map Combo.asdict).foldlM _ (dictInsert st c.value c) = _
      rw [ih (fun x hx => h x (List.mem_cons_of_mem _ hx)), List.foldl_cons]

theorem model_fromdict_asdict (m : Model) (hdig : 1 ≤ m.digit ∧ m.digit ≤ 9)
    (hwf : ∀ c ∈ m.combos_sorted, ComboWF c) :
    Model.fromdict (Model.asdict m) =
      .ok ⟨m.digit, .jint m.max_value, .jint m.max_cost,
        m.combos_sorted.foldl (fun st c => dictInsert st c.value c) []⟩ := by
  have h1 : lookupKey (Model.asdict m) "digit" = some (.jint m.digit) := rfl
  have h4 : lookupKey (Model.asdict m) "combinations" =
      some (.jlist (m.combos_sorted.map Combo.asdict)) := rfl
  show (if 1 ≤ m.digit ∧ m.digit ≤ 9 then _ else Except.error PyExn.valueError) = _
  rw [if_pos hdig]
  show ((m.combos_sorted.map Combo.asdict).foldlM
      (fun st cd => (Combo.fromdict cd).map fun c => dictInsert st c.value c) []).map _ = _
  rw [fold_fromdict m.combos_sorted hwf []]
  rfl

theorem combos_sorted_wf (m : Model) (hnd : (m.state.map Prod.fst).Nodup)
    (hwf : ∀ p ∈ m.state, ComboWF p.2) : ∀ c ∈ m.combos_sorted, ComboWF c := by
  intro c hc
  unfold Model.combos_sorted at hc
  obtain ⟨k, hk, rfl⟩ := List.mem_map.mp hc
  obtain ⟨c2, hc2⟩ := lookup_of_mem_keys m hnd k ((mem_sortedKeys m k).mp hk)
  rw [hc2, Option.getD_some]
  exact hwf _ (dictLookup_mem _ _ _ hc2)

theorem rebuilt_lookup (m : Model) (hkv : ∀ p ∈ m.state, p.1 = p.2.value)
    (hnd : (m.state.map Prod.fst).Nodup) :
    ∀ q, dictLookup (m.combos_sorted.foldl (fun st c => dictInsert st c.value c) []) q =
      dictLookup m.state q := by
  intro q
  have hcsnd : (m.combos_sorted.map Combo.value).Nodup := by
    rw [combos_sorted_values m hkv hnd]
    exact nodup_sortedKeys m hnd
  rw [foldl_dictInsert_lookup_nodup m.combos_sorted hcsnd]
  by_cases hq : q ∈ m.state.map Prod.fst
  · obtain ⟨c, hc⟩ := lookup_of_mem_keys m hnd q hq
    have hcv : c.value = q := lookup_value_eq m hkv q c hc
    have hmem : c ∈ m.combos_sorted := by
      unfold Model.combos_sorted
      refine List.mem_map.mpr ⟨q, (mem_sortedKeys m q).mpr hq, ?_⟩
      rw [hc, Option.getD_some]
    have hfind := find?_value_of_mem m.combos_sorted hcsnd c hmem
    rw [hcv] at hfind
    rw [hfind, hc]
  · have hnone : dictLookup m.state q = none := by
      apply dictLookup_eq_none
      intro p hp he
      exact hq (he ▸ List.mem_map_of_mem Prod.fst hp)
    have hfind : m.combos_sorted.find? (fun c => decide (c.value = q)) = none := by
      apply List.find?_eq_none.mpr
      intro x hx
      simp only [decide_eq_true_eq]
      intro hxq
      apply hq
      have : x.value ∈ m.combos_sorted.map Combo.value := List.mem_map_of_mem Combo.value hx
      rw [combos_sorted_values m hkv hnd] at this
      exact (mem_sortedKeys m _).mp (hxq ▸ this)
    rw [hfind, hnone]
    rfl

/-- **C6.**  For every model whose state is a genuine mapping (keys equal
their record's value, duplicate-free) of constructed records, exporting
with `asdict` and reconstructing with `Model.fromdict` succeeds and yields
a model with identical digit, `max_value`, `max_cost` and an extensionally
identical state mapping; moreover the exported `combinations` list is
sorted by ascending value. -/
theorem roundtrip_serialization (m : Model)
    (hdig : 1 ≤ m.digit ∧ m.digit ≤ 9)
    (hkv : ∀ p ∈ m.state, p.1 = p.2.value)
    (hnd : (m.state.map Prod.fst).Nodup)
    (hwf : ∀ p ∈ m.state, ComboWF p.2) :
    ∃ lm, Model.fromdict (Model.asdict m) = .ok lm ∧
      lm.digit = m.digit ∧ lm.max_value = .jint m.max_value ∧
      lm.max_cost = .jint m.max_cost ∧
      (∀ q, dictLookup lm.state q = dictLookup m.state q) ∧
      List.Sorted (· ≤ ·) (m.combos_sorted.map Combo.value) := by
  refine ⟨_, model_fromdict_asdict m hdig (combos_sorted_wf m hnd hwf), rfl, rfl, rfl, ?_, ?_⟩
  · exact rebuilt_lookup m hkv hnd
  · rw [combos_sorted_values m hkv hnd]
    exact sorted_sortedKeys m

/-- Witness for C6 at a concrete two-record model. -/
theorem roundtrip_serialization_witness :
    ∃ lm, Model.fromdict (Model.asdict
        (Model.mk 2 50 3 [(2, Combo.mk 2 1 "2" "2"), (4, Combo.mk 4 2 "2 * 2" "2 * 2")])) =
      .ok lm ∧
      lm.digit = (2 : Int) ∧ lm.max_value = .jint 50 ∧ lm.max_cost = .jint 3 ∧
      (∀ q, dictLookup lm.state q = dictLookup
        [(2, Combo.mk 2 1 "2" "2"), (4, Combo.mk 4 2 "2 * 2" "2 * 2")] q) ∧
      List.Sorted (· ≤ ·) ((Model.mk 2 50 3
        [(2, Combo.mk 2 1 "2" "2"), (4, Combo.mk 4 2 "2 * 2" "2 * 2")]).combos_sorted.map
          Combo.value) :=
  roundtrip_serialization
    (Model.mk 2 50 3 [(2, Combo.mk 2 1 "2" "2"), (4, Combo.mk 4 2 "2 * 2" "2 * 2")])
    (by decide) (by decide) (by decide)
    (by
      intro p hp
      rcases List.mem_cons.mp hp with h | h
      · subst h
        exact ⟨by decide, by decide, by decide⟩
      · rcases List.mem_cons.mp h with h2 | h2
        · subst h2
          exact ⟨by decide, by decide, by decide⟩
        · cases h2)
